import Mathlib

/-!
Verification of the CURIE prefix-registry library.

The source represents strings as UTF-8 Rust strings.  We embed a string as
a list of unicode scalar values (`List Char`) and model the byte-indexed
slicing of Rust explicitly: `&s[..i]` and `&s[i..]` succeed only when the
byte index `i` falls on a character boundary, and panic otherwise.  A
panicking operation is modelled by an `Option` result whose `none` value
stands for the panic.
-/

namespace CurieLib

/-- A Rust string, embedded as its list of unicode scalar values. -/
abbrev Str := List Char

/-- The number of bytes of the UTF-8 encoding of one character. -/
def rustCharLen (c : Char) : Nat :=
  if c.toNat < 128 then 1
  else if c.toNat < 2048 then 2
  else if c.toNat < 65536 then 3
  else 4

/-- Errors from `add_prefix` (source: `InvalidPrefixError`). -/
inductive InvalidPrefixError
  | ReservedPrefix
deriving DecidableEq

/-- Errors from expansion (source: `ExpansionError`). -/
inductive ExpansionError
  | Invalid
  | MissingDefault
deriving DecidableEq

/-- The structured compact identifier (source: `struct Curie`); the field
`pfx` embeds the source's optional `prefix` field and `reference` the
reference string. -/
structure Curie where
  pfx : Option Str
  reference : Str
deriving DecidableEq

/-- Source: `Curie::new`. -/
def Curie.new (p : Option Str) (r : Str) : Curie := ⟨p, r⟩

/-- The registry (source: `struct PrefixMapping`): an optional default base
and a finite map from names to bases.  The source stores the map in a
`HashMap`; we embed it as an association list with unique keys, whose
order plays the role of the map's (unspecified) iteration order. -/
structure PrefixMapping where
  default : Option Str
  mapping : List (Str × Str)
deriving DecidableEq

/-- Source: `PrefixMapping::default()`, the empty registry. -/
def emptyPM : PrefixMapping := ⟨none, []⟩

/-- Exact-key lookup, source: `HashMap::get`. -/
def strLookup : List (Str × Str) → Str → Option Str
  | [], _ => none
  | (k, v) :: rest, key => if k = key then some v else strLookup rest key

/-- Key-replacing insertion, source: `HashMap::insert`. -/
def insertKV : List (Str × Str) → Str → Str → List (Str × Str)
  | [], k, v => [(k, v)]
  | (k0, v0) :: rest, k, v =>
    if k0 = k then (k, v) :: rest else (k0, v0) :: insertKV rest k v

/-- Key removal, source: `HashMap::remove`. -/
def removeKV : List (Str × Str) → Str → List (Str × Str)
  | [], _ => []
  | (k0, v0) :: rest, k =>
    if k0 = k then removeKV rest k else (k0, v0) :: removeKV rest k

/-- The reserved name `"_"`. -/
def reservedName : Str := ['_']

/-- Source: `PrefixMapping::set_default`. -/
def set_default (pm : PrefixMapping) (d : Str) : PrefixMapping :=
  ⟨some d, pm.mapping⟩

/-- Source: `PrefixMapping::add_prefix`.  Returns the `Result` value
together with the registry after the call. -/
def addPrefix (pm : PrefixMapping) (p v : Str) :
    Except InvalidPrefixError Unit × PrefixMapping :=
  if p = reservedName then (.error .ReservedPrefix, pm)
  else (.ok (), ⟨pm.default, insertKV pm.mapping p v⟩)

/-- Source: `PrefixMapping::remove_prefix`. -/
def removePrefix (pm : PrefixMapping) (p : Str) : PrefixMapping :=
  ⟨pm.default, removeKV pm.mapping p⟩

/-- Source: `PrefixMapping::expand_exploded_curie`. -/
def expand_exploded_curie (pm : PrefixMapping) (p : Option Str)
    (reference : Str) : Except ExpansionError Str :=
  match p with
  | some pname =>
    match strLookup pm.mapping pname with
    | some mapped => .ok (mapped ++ reference)
    | none => .error .Invalid
  | none =>
    match pm.default with
    | some d => .ok (d ++ reference)
    | none => .error .MissingDefault

/-- Source: `PrefixMapping::expand_curie`. -/
def expand_curie (pm : PrefixMapping) (c : Curie) : Except ExpansionError Str :=
  expand_exploded_curie pm c.pfx c.reference

/-- Character index of the first colon, source:
`curie_str.chars().position(|c| c == ':')`. -/
def colonPos : Str → Option Nat
  | [] => none
  | c :: cs => if c = ':' then some 0 else Option.map (· + 1) (colonPos cs)

/-- Rust byte slice `&s[..i]`: succeeds iff byte index `i` is a character
boundary of `s` (otherwise Rust panics, modelled by `none`). -/
def sliceToByte (s : Str) (i : Nat) : Option Str :=
  if i = 0 then some []
  else
    match s with
    | [] => none
    | c :: cs =>
      if rustCharLen c ≤ i then
        match sliceToByte cs (i - rustCharLen c) with
        | some t => some (c :: t)
        | none => none
      else none

/-- Rust byte slice `&s[i..]`: succeeds iff byte index `i` is a character
boundary of `s` (otherwise Rust panics, modelled by `none`). -/
def sliceFromByte (s : Str) (i : Nat) : Option Str :=
  if i = 0 then some s
  else
    match s with
    | [] => none
    | c :: cs =>
      if rustCharLen c ≤ i then sliceFromByte cs (i - rustCharLen c)
      else none

/-- Source: `PrefixMapping::expand_curie_string`.  The source finds the
character index of the first colon and then slices the string at that
number taken as a byte index; either slice may panic (`none`). -/
def expand_curie_string (pm : PrefixMapping) (s : Str) :
    Option (Except ExpansionError Str) :=
  match colonPos s with
  | some i =>
    match sliceToByte s i, sliceFromByte s (i + 1) with
    | some pn, some ref => some (expand_curie pm (Curie.new (some pn) ref))
    | _, _ => none
  | none => some (expand_curie pm (Curie.new none s))

/-- Fuel-indexed body of `trim_left_matches`; the fuel only serves to make
the recursion structural and is always supplied with at least the length
of the string, which bounds the number of strip steps. -/
def trimAux : Nat → Str → Str → Str
  | 0, s, _ => s
  | fuel + 1, s, pat =>
    if pat = [] then s
    else if List.isPrefixOf pat s then trimAux fuel (List.drop pat.length s) pat
    else s

/-- Rust `str::trim_left_matches` with a string pattern: repeatedly remove
the pattern from the front while it is a prefix (an empty pattern removes
nothing). -/
def trim_left_matches (s pat : Str) : Str := trimAux s.length s pat

/-- The error value of `shrink_iri`, source: `"Unable to shorten"`. -/
def unableMsg : Str :=
  ['U', 'n', 'a', 'b', 'l', 'e', ' ', 't', 'o', ' ', 's', 'h', 'o', 'r',
   't', 'e', 'n']

/-- The scan over the stored pairs in `shrink_iri` (source: the `for mp in
&self.mapping` loop). -/
def shrinkScan : List (Str × Str) → Str → Except Str Curie
  | [], _ => .error unableMsg
  | (name, base) :: rest, iri =>
    if List.isPrefixOf base iri then
      .ok (Curie.new (some name) (trim_left_matches iri base))
    else shrinkScan rest iri

/-- Source: `PrefixMapping::shrink_iri`. -/
def shrink_iri (pm : PrefixMapping) (iri : Str) : Except Str Curie :=
  match pm.default with
  | some d =>
    if List.isPrefixOf d iri then
      .ok (Curie.new none (trim_left_matches iri d))
    else shrinkScan pm.mapping iri
  | none => shrinkScan pm.mapping iri

/-- Expansion of a structured compact identifier followed by contraction
of the produced identifier (the round-trip of the spec); `none` when the
expansion fails. -/
def shrinkExpand (pm : PrefixMapping) (c : Curie) :
    Option (Except Str Curie) :=
  match expand_curie pm c with
  | .ok iri => some (shrink_iri pm iri)
  | .error _ => none

/-- One mutating registry operation. -/
inductive RegOp
  | setDef (d : Str)
  | addPfx (p v : Str)
  | removePfx (p : Str)

/-- Apply one mutating operation, discarding the returned `Result`. -/
def applyOp (pm : PrefixMapping) : RegOp → PrefixMapping
  | .setDef d => set_default pm d
  | .addPfx p v => (addPrefix pm p v).2
  | .removePfx p => removePrefix pm p

/-- The registry reached from the empty registry by a list of mutating
operations. -/
def runOps (ops : List RegOp) : PrefixMapping := ops.foldl applyOp emptyPM

/-- `d` repeated `k` times. -/
def repeatList (d : Str) : Nat → Str
  | 0 => []
  | k + 1 => d ++ repeatList d k

/-- Splitting at the first colon as the specification words it: the
characters before the first colon form the prefix of the compact
identifier and the characters after the colon form its reference; with no
colon the prefix is absent.  This definition follows the specification
text and exists to compare the string entry point with the structured
entry point. -/
def splitCurieStringSpec (s : Str) : Curie :=
  match colonPos s with
  | some i => Curie.new (some (List.take i s)) (List.drop (i + 1) s)
  | none => Curie.new none s

/-- Decidable equality of `Except` values, used to evaluate results on
concrete inputs. -/
instance exceptDecEq {ε α : Type} [DecidableEq ε] [DecidableEq α] :
    DecidableEq (Except ε α) := fun a b =>
  match a, b with
  | .ok x, .ok y =>
    if h : x = y then isTrue (by rw [h])
    else isFalse (fun hc => h (Except.ok.inj hc))
  | .error x, .error y =>
    if h : x = y then isTrue (by rw [h])
    else isFalse (fun hc => h (Except.error.inj hc))
  | .ok _, .error _ => isFalse (fun hc => Except.noConfusion hc)
  | .error _, .ok _ => isFalse (fun hc => Except.noConfusion hc)

/- Helper lemmas about the boolean prefix test and `trim_left_matches`. -/

theorem bool_eq_false {b : Bool} (h : ¬ b = true) : b = false := by
  cases b
  · rfl
  · exact absurd rfl h

theorem isPrefixOf_append_left (l t : Str) : List.isPrefixOf l (l ++ t) = true := by
  induction l with
  | nil => simp [List.isPrefixOf]
  | cons c cs ih => simp [List.isPrefixOf, ih]

theorem isPrefixOf_nil_of_ne_nil (l : Str) (h : l ≠ []) :
    List.isPrefixOf l [] = false := by
  cases l with
  | nil => exact absurd rfl h
  | cons c cs => rfl

theorem append_drop_of_isPrefixOf {p s : Str}
    (h : List.isPrefixOf p s = true) : p ++ List.drop p.length s = s := by
  obtain ⟨t, ht⟩ := List.isPrefixOf_iff_prefix.mp h
  rw [← ht, List.drop_left]

theorem trimAux_nil_pat (fuel : Nat) (s : Str) : trimAux fuel s [] = s := by
  cases fuel with
  | zero => rfl
  | succ f => simp [trimAux]

theorem trimAux_of_not_prefixOf (fuel : Nat) {s pat : Str}
    (h : List.isPrefixOf pat s = false) : trimAux fuel s pat = s := by
  cases fuel with
  | zero => rfl
  | succ f =>
    by_cases hp : pat = []
    · subst hp; simp [trimAux]
    · simp [trimAux, hp, h]

theorem trim_left_matches_nil_pat (s : Str) : trim_left_matches s [] = s :=
  trimAux_nil_pat s.length s

theorem trim_left_matches_of_not_prefixOf {s pat : Str}
    (h : List.isPrefixOf pat s = false) : trim_left_matches s pat = s :=
  trimAux_of_not_prefixOf s.length h

theorem trim_left_matches_append {d r : Str}
    (h : List.isPrefixOf d r = false) : trim_left_matches (d ++ r) d = r := by
  have hd : d ≠ [] := by
    intro he
    rw [he] at h
    simp [List.isPrefixOf] at h
  obtain ⟨c, d', rfl⟩ := List.exists_cons_of_ne_nil hd
  show trimAux (c :: (d' ++ r)).length (c :: (d' ++ r)) (c :: d') = r
  have hlen : (c :: (d' ++ r)).length = (d' ++ r).length + 1 := rfl
  rw [hlen]
  have hpre := isPrefixOf_append_left (c :: d') r
  simp only [trimAux, List.cons_append] at hpre ⊢
  rw [if_neg (by simp), if_pos hpre]
  have hdrop : List.drop (c :: d').length (c :: d' ++ r) = r := List.drop_left _ _
  simp only [List.cons_append] at hdrop
  rw [hdrop]
  exact trimAux_of_not_prefixOf _ h

theorem trimAux_spec (fuel : Nat) :
    ∀ (s pat : Str), s.length ≤ fuel →
      ∃ k, s = repeatList pat k ++ trimAux fuel s pat ∧
        (pat = [] ∨ List.isPrefixOf pat (trimAux fuel s pat) = false) := by
  induction fuel with
  | zero =>
    intro s pat hle
    have hs : s = [] := List.eq_nil_of_length_eq_zero (Nat.le_zero.mp hle)
    subst hs
    refine ⟨0, rfl, ?_⟩
    by_cases hp : pat = []
    · exact Or.inl hp
    · exact Or.inr (isPrefixOf_nil_of_ne_nil pat hp)
  | succ f ih =>
    intro s pat hle
    by_cases hp : pat = []
    · subst hp
      exact ⟨0, by simp [trimAux, repeatList], Or.inl rfl⟩
    · by_cases hpre : List.isPrefixOf pat s = true
      · have hstep : trimAux (f + 1) s pat = trimAux f (List.drop pat.length s) pat := by
          simp [trimAux, hp, hpre]
        have hsplit : pat ++ List.drop pat.length s = s :=
          append_drop_of_isPrefixOf hpre
        have hplen : 1 ≤ pat.length := by
          cases pat with
          | nil => exact absurd rfl hp
          | cons _ _ => simp
        have hlen : (List.drop pat.length s).length ≤ f := by
          rw [List.length_drop]
          omega
        obtain ⟨k, hk, hres⟩ := ih (List.drop pat.length s) pat hlen
        refine ⟨k + 1, ?_, by rw [hstep]; exact hres⟩
        rw [hstep]
        calc s = pat ++ List.drop pat.length s := hsplit.symm
          _ = pat ++ (repeatList pat k ++ trimAux f (List.drop pat.length s) pat) :=
            congrArg (fun t => pat ++ t) hk
          _ = (pat ++ repeatList pat k) ++ trimAux f (List.drop pat.length s) pat :=
            (List.append_assoc _ _ _).symm
          _ = repeatList pat (k + 1) ++ trimAux f (List.drop pat.length s) pat := rfl
      · have hpre' := bool_eq_false hpre
        refine ⟨0, by simp [repeatList, trimAux_of_not_prefixOf _ hpre'], Or.inr ?_⟩
        rw [trimAux_of_not_prefixOf _ hpre']
        exact hpre'

theorem trim_left_matches_spec (s pat : Str) :
    ∃ k, s = repeatList pat k ++ trim_left_matches s pat ∧
      (pat = [] ∨ List.isPrefixOf pat (trim_left_matches s pat) = false) :=
  trimAux_spec s.length s pat (Nat.le_refl _)

/- Helper lemmas about the lookup, the insertion and the contraction scan. -/

theorem strLookup_insertKV (m : List (Str × Str)) (p v k : Str) :
    strLookup (insertKV m p v) k = if p = k then some v else strLookup m k := by
  induction m with
  | nil => rfl
  | cons hd tl ih =>
    obtain ⟨k0, v0⟩ := hd
    by_cases h0 : k0 = p
    · subst h0
      simp only [insertKV, if_pos rfl, strLookup]
      by_cases hk : k0 = k
      · simp [hk]
      · simp [hk, strLookup]
    · simp only [insertKV, if_neg h0, strLookup]
      by_cases hk : k0 = k
      · subst hk
        have : ¬ p = k0 := fun he => h0 he.symm
        simp [this]
      · simp [hk, ih]

theorem strLookup_removeKV (m : List (Str × Str)) (p k : Str) :
    strLookup (removeKV m p) k = if p = k then none else strLookup m k := by
  induction m with
  | nil => simp [removeKV, strLookup]
  | cons hd tl ih =>
    obtain ⟨k0, v0⟩ := hd
    by_cases h0 : k0 = p
    · subst h0
      simp only [removeKV, if_pos rfl]
      by_cases hk : k0 = k
      · subst hk
        simp [ih]
      · simp [ih, hk, strLookup]
    · simp only [removeKV, if_neg h0, strLookup]
      by_cases hk : k0 = k
      · subst hk
        have : ¬ p = k0 := fun he => h0 he.symm
        simp [this, strLookup]
      · simp [hk, ih]

theorem strLookup_of_nodup {m : List (Str × Str)} {p base : Str}
    (hnd : (m.map Prod.fst).Nodup) (hmem : (p, base) ∈ m) :
    strLookup m p = some base := by
  induction m with
  | nil => cases hmem
  | cons hd tl ih =>
    obtain ⟨k, v⟩ := hd
    rw [List.map_cons, List.nodup_cons] at hnd
    rcases List.mem_cons.mp hmem with heq | htl
    · injection heq with h1 h2
      subst h1; subst h2
      simp [strLookup]
    · have hpm : p ∈ List.map Prod.fst tl := by
        have hx := List.mem_map_of_mem Prod.fst htl
        simpa using hx
      have hk : k ≠ p := fun he => hnd.1 (by rw [he]; exact hpm)
      simp only [strLookup, if_neg hk]
      exact ih hnd.2 htl

theorem nodup_key_val_unique {m : List (Str × Str)} {k v₁ v₂ : Str}
    (hnd : (m.map Prod.fst).Nodup) (h1 : (k, v₁) ∈ m) (h2 : (k, v₂) ∈ m) :
    v₁ = v₂ := by
  have e1 := strLookup_of_nodup hnd h1
  have e2 := strLookup_of_nodup hnd h2
  rw [e1] at e2
  exact Option.some.inj e2

theorem shrinkScan_eq_find (m : List (Str × Str)) (iri : Str) :
    shrinkScan m iri =
      match List.find? (fun nb => List.isPrefixOf nb.2 iri) m with
      | some nb => .ok (Curie.new (some nb.1) (trim_left_matches iri nb.2))
      | none => .error unableMsg := by
  induction m with
  | nil => rfl
  | cons hd tl ih =>
    obtain ⟨name, base⟩ := hd
    by_cases hb : List.isPrefixOf base iri = true
    · simp [shrinkScan, hb, List.find?]
    · have hb' := bool_eq_false hb
      simp [shrinkScan, hb', List.find?, ih]

theorem shrinkScan_of_no_match {m : List (Str × Str)} {iri : Str}
    (h : ∀ nb ∈ m, List.isPrefixOf nb.2 iri = false) :
    shrinkScan m iri = .error unableMsg := by
  induction m with
  | nil => rfl
  | cons hd tl ih =>
    have hh := h hd (List.mem_cons_self hd tl)
    obtain ⟨name, base⟩ := hd
    simp only [shrinkScan, hh]
    simp only [Bool.false_eq_true, if_false]
    exact ih (fun nb hnb => h nb (List.mem_cons_of_mem _ hnb))

theorem shrinkScan_mem_unique {m : List (Str × Str)} {p base iri : Str}
    (hmem : (p, base) ∈ m) (hpre : List.isPrefixOf base iri = true)
    (huni : ∀ nb ∈ m, List.isPrefixOf nb.2 iri = true → nb = (p, base)) :
    shrinkScan m iri = .ok (Curie.new (some p) (trim_left_matches iri base)) := by
  induction m with
  | nil => cases hmem
  | cons hd tl ih =>
    obtain ⟨q, b⟩ := hd
    by_cases hb : List.isPrefixOf b iri = true
    · have := huni (q, b) (List.mem_cons_self _ _) hb
      injection this with e1 e2
      subst e1; subst e2
      simp [shrinkScan, hb]
    · have hb' := bool_eq_false hb
      simp only [shrinkScan, hb', Bool.false_eq_true, if_false]
      have htl : (p, base) ∈ tl := by
        rcases List.mem_cons.mp hmem with heq | htl
        · injection heq with e1 e2
          subst e1; subst e2
          exact absurd hpre hb
        · exact htl
      exact ih htl (fun nb hnb hm => huni nb (List.mem_cons_of_mem _ hnb) hm)

theorem colonPos_eq_none {s : Str} (h : ':' ∉ s) : colonPos s = none := by
  induction s with
  | nil => rfl
  | cons c cs ih =>
    have hc : ¬ c = ':' := fun he => h (by rw [he]; exact List.mem_cons_self ':' cs)
    simp [colonPos, hc, ih (fun hm => h (List.mem_cons_of_mem c hm))]

theorem strLookup_applyOp_reserved {pm : PrefixMapping} (op : RegOp)
    (h : strLookup pm.mapping reservedName = none) :
    strLookup (applyOp pm op).mapping reservedName = none := by
  cases op with
  | setDef d => exact h
  | addPfx p v =>
    by_cases hp : p = reservedName
    · subst hp
      simpa [applyOp, addPrefix] using h
    · simp only [applyOp, addPrefix, if_neg hp]
      rw [strLookup_insertKV, if_neg hp]
      exact h
  | removePfx p =>
    simp only [applyOp, removePrefix]
    rw [strLookup_removeKV]
    by_cases hp : p = reservedName
    · simp [hp]
    · simp [hp, h]

theorem runOps_no_reserved_aux (ops : List RegOp) :
    ∀ pm : PrefixMapping, strLookup pm.mapping reservedName = none →
      strLookup (List.foldl applyOp pm ops).mapping reservedName = none := by
  induction ops with
  | nil => intro pm h; exact h
  | cons op rest ih =>
    intro pm h
    exact ih (applyOp pm op) (strLookup_applyOp_reserved op h)

/- The claims. -/

/-- C1: the claim states that `expand_curie_string` returns an explicit
result value for every input string and never aborts with a panic, in
particular on strings with multi-byte characters before the colon.  The
code violates this: it finds the character index of the first colon but
slices the string at that number taken as a byte index, so on the input
`"é:a"` (here with the empty registry) the slice at byte index 1 falls
inside the two-byte character `é` and the program panics, which the
embedding models by the `none` result. -/
theorem expand_panic_C1 :
    expand_curie_string emptyPM ['é', ':', 'a'] = none := rfl

/-- C5: expanding a string that starts with a colon looks up the empty
string as a registered prefix: the result is `Ok (base ++ reference)`
exactly when the empty prefix is registered with `base`, and
`InvalidPrefixError` otherwise, independently of the default base (left
arbitrary here), so the empty prefix is never treated as the
absent-prefix case. -/
theorem empty_prefix_lookup_C5 (pm : PrefixMapping) (rest : Str) :
    expand_curie_string pm (':' :: rest) =
      some (match strLookup pm.mapping [] with
        | some base => .ok (base ++ rest)
        | none => .error ExpansionError.Invalid) := by
  have h1 : colonPos (':' :: rest) = some 0 := by simp [colonPos]
  have h2 : sliceToByte (':' :: rest) 0 = some [] := by simp [sliceToByte]
  have h3 : sliceFromByte (':' :: rest) 1 = some rest := by
    cases rest <;> simp [sliceFromByte, rustCharLen]
  simp only [expand_curie_string, h1, h2, h3, expand_curie, Curie.new,
    expand_exploded_curie]

/-- C6: the claim states that for an input whose first colon is at
position `i`, the text before the colon is the looked-up prefix and the
text after it the reference, giving `Ok (base ++ reference)` for a
registered prefix.  The code violates this on non-ASCII input: with the
prefix `"éa"` registered to the base `"B"`, expanding `"éa:x"` should
give `Ok "Bx"`, but the code slices at the character count of the
pre-colon text (2) taken as a byte index, so it looks up `"é"` and fails
with `InvalidPrefixError`. -/
theorem expand_wrong_split_C6 :
    strLookup (addPrefix emptyPM ['é', 'a'] ['B']).2.mapping ['é', 'a']
        = some ['B'] ∧
    expand_curie_string (addPrefix emptyPM ['é', 'a'] ['B']).2
        ['é', 'a', ':', 'x'] = some (.error ExpansionError.Invalid) :=
  ⟨rfl, rfl⟩

/-- C7: for every input containing no colon, `expand_curie_string`
returns `Ok (default_base ++ text)` when a default base is set and the
missing-default error when none is set. -/
theorem expand_no_colon_C7 (pm : PrefixMapping) (s : Str) (h : ':' ∉ s) :
    expand_curie_string pm s =
      some (match pm.default with
        | some d => .ok (d ++ s)
        | none => .error ExpansionError.MissingDefault) := by
  have hc : colonPos s = none := colonPos_eq_none h
  simp only [expand_curie_string, hc, expand_curie, Curie.new,
    expand_exploded_curie]

/-- Witness for C7: a concrete registry with the default base `"e/"` and
the colon-free input `"P"`. -/
theorem expand_no_colon_C7_w :
    expand_curie_string (set_default emptyPM ['e', '/']) ['P'] =
      some (match (set_default emptyPM ['e', '/']).default with
        | some d => .ok (d ++ ['P'])
        | none => .error ExpansionError.MissingDefault) :=
  expand_no_colon_C7 (set_default emptyPM ['e', '/']) ['P'] (by decide)

/-- C8: adding the reserved prefix `"_"` always fails with the reserved
prefix error and returns the registry unchanged, and consequently `"_"`
is never a key of the mapping in any registry reachable from the empty
registry by the mutating operations. -/
theorem reserved_underscore_C8 :
    (∀ (pm : PrefixMapping) (v : Str),
      addPrefix pm reservedName v
        = (.error InvalidPrefixError.ReservedPrefix, pm)) ∧
    (∀ ops : List RegOp,
      strLookup (runOps ops).mapping reservedName = none) := by
  constructor
  · intro pm v
    simp [addPrefix]
  · intro ops
    exact runOps_no_reserved_aux ops emptyPM rfl

/-- C9: the claim states that the string entry point has exactly the
semantics of `expand_curie` applied to the input split at its first
colon.  The code violates this: on `"β:r"` with the empty registry the
structured expansion of the split identifier returns the explicit
`InvalidPrefixError`, while the string entry point panics (`none`),
because its byte slice at the character index 1 of the colon falls
inside the two-byte character `β`. -/
theorem entry_points_diverge_C9 :
    expand_curie_string emptyPM ['β', ':', 'r'] = none ∧
    expand_curie emptyPM (splitCurieStringSpec ['β', ':', 'r'])
      = .error ExpansionError.Invalid :=
  ⟨rfl, rfl⟩

/-- C10: when the default base has been set to the empty string,
`shrink_iri` never fails: it returns the compact identifier with absent
prefix and the full input as reference (Rust's `trim_left_matches` with
an empty pattern removes nothing). -/
theorem shrink_total_empty_default_C10 (pm : PrefixMapping) (iri : Str)
    (h : pm.default = some ([] : Str)) :
    shrink_iri pm iri = .ok (Curie.new none iri) := by
  have hp : List.isPrefixOf ([] : Str) iri = true := by simp [List.isPrefixOf]
  simp only [shrink_iri, h, hp, if_true, trim_left_matches_nil_pat]

/-- Witness for C10: the registry whose default base is the empty string
shrinks the concrete identifier `"ab"` to itself with absent prefix. -/
theorem shrink_total_empty_default_C10_w :
    shrink_iri (set_default emptyPM []) ['a', 'b']
      = .ok (Curie.new none ['a', 'b']) :=
  shrink_total_empty_default_C10 (set_default emptyPM []) ['a', 'b'] rfl

/-- C2 counterexample: with the default base `"ab"` the identifier
`"abab"` shrinks to the empty reference, removing both leading
occurrences of the base, not to `"ab"` as the claim's removal of exactly
one leading occurrence would give. -/
theorem shrink_one_strip_cex_C2 :
    shrink_iri (set_default emptyPM ['a', 'b']) ['a', 'b', 'a', 'b']
      = .ok (Curie.new none []) ∧
    shrink_iri (set_default emptyPM ['a', 'b']) ['a', 'b', 'a', 'b']
      ≠ .ok (Curie.new none ['a', 'b']) :=
  ⟨rfl, by decide⟩

/-- C2 (amended): `shrink_iri` first checks the default base: when the
default base `d` is a literal prefix of the identifier the result has
absent prefix and a reference obtained by removing all repeated leading
occurrences of `d` (not exactly one, as originally claimed; an empty
base removes nothing); otherwise the first registered pair in iteration
order whose base is a literal prefix of the identifier supplies the
prefix name, the reference again having every leading occurrence of that
base removed; when neither step matches, the result is the
no-mapping-found error. -/
theorem shrink_cases_C2 (pm : PrefixMapping) (iri : Str) :
    (∀ d, pm.default = some d → List.isPrefixOf d iri = true →
      ∃ ref k, shrink_iri pm iri = .ok (Curie.new none ref) ∧
        iri = repeatList d k ++ ref ∧
        (d = [] ∨ List.isPrefixOf d ref = false)) ∧
    ((∀ d, pm.default = some d → List.isPrefixOf d iri = false) →
      (List.find? (fun nb => List.isPrefixOf nb.2 iri) pm.mapping = none →
        shrink_iri pm iri = .error unableMsg) ∧
      (∀ n b, List.find? (fun nb => List.isPrefixOf nb.2 iri) pm.mapping
          = some (n, b) →
        ∃ ref k, shrink_iri pm iri = .ok (Curie.new (some n) ref) ∧
          iri = repeatList b k ++ ref ∧
          (b = [] ∨ List.isPrefixOf b ref = false))) := by
  constructor
  · intro d hd hpre
    obtain ⟨k, hk, hres⟩ := trim_left_matches_spec iri d
    refine ⟨trim_left_matches iri d, k, ?_, hk, hres⟩
    simp only [shrink_iri, hd, hpre, if_true]
  · intro hdef
    have hscan : shrink_iri pm iri = shrinkScan pm.mapping iri := by
      cases hd : pm.default with
      | none => simp [shrink_iri, hd]
      | some d =>
        have hdp := hdef d hd
        simp [shrink_iri, hd, hdp]
    constructor
    · intro hfind
      rw [hscan, shrinkScan_eq_find, hfind]
    · intro n b hfind
      obtain ⟨k, hk, hres⟩ := trim_left_matches_spec iri b
      refine ⟨trim_left_matches iri b, k, ?_, hk, hres⟩
      rw [hscan, shrinkScan_eq_find, hfind]

/-- Witness for C2 at the registry with default base `"ab"` and the
identifier `"abab"`. -/
theorem shrink_cases_C2_w :
    ∃ ref k,
      shrink_iri (set_default emptyPM ['a', 'b']) ['a', 'b', 'a', 'b']
        = .ok (Curie.new none ref) ∧
      ['a', 'b', 'a', 'b'] = repeatList ['a', 'b'] k ++ ref ∧
      (['a', 'b'] = ([] : Str) ∨ List.isPrefixOf ['a', 'b'] ref = false) :=
  (shrink_cases_C2 (set_default emptyPM ['a', 'b']) ['a', 'b', 'a', 'b']).1
    ['a', 'b'] rfl rfl

/-- C3 counterexample: in the registry mapping `"p"` to `"ab"` with no
default base, the reference `"abX"` satisfies every hypothesis of the
original claim (registered prefix, no colon, no other registered base,
no default base), yet the round trip returns `Curie(Some "p", "X")`
instead of `Curie(Some "p", "abX")`: the contraction strips the base
twice because the reference itself starts with the base. -/
theorem roundtrip_registered_cex_C3 :
    ((PrefixMapping.mk none [(['p'], ['a', 'b'])]).mapping.map
      Prod.fst).Nodup ∧
    (['p'], ['a', 'b'])
      ∈ (PrefixMapping.mk none [(['p'], ['a', 'b'])]).mapping ∧
    ':' ∉ (['a', 'b', 'X'] : Str) ∧
    (PrefixMapping.mk none [(['p'], ['a', 'b'])]).default = none ∧
    (∀ nb ∈ (PrefixMapping.mk none [(['p'], ['a', 'b'])]).mapping,
      nb.1 ≠ ['p'] →
        List.isPrefixOf nb.2 (['a', 'b'] ++ ['a', 'b', 'X']) = false) ∧
    shrinkExpand (PrefixMapping.mk none [(['p'], ['a', 'b'])])
        (Curie.new (some ['p']) ['a', 'b', 'X'])
      = some (.ok (Curie.new (some ['p']) ['X'])) ∧
    Curie.new (some ['p']) ['X'] ≠ Curie.new (some ['p']) ['a', 'b', 'X'] :=
  ⟨by decide, by decide, by decide, rfl, by decide, rfl, by decide⟩

/-- C3 (amended): round-trip for a registered prefix.  For a registry
with unique keys containing `(p, base)`, a reference `r` without a
colon, no default base that is a literal prefix of `base ++ r`, and no
other registered base that is a literal prefix of `base ++ r`, expanding
`Curie(Some p, r)` and shrinking the result returns `Curie(Some p, r)` —
provided additionally (the amendment) that `base` is empty or `r` does
not itself start with `base`, since the contraction removes repeated
leading occurrences of the base. -/
theorem roundtrip_registered_C3 (pm : PrefixMapping) (p base r : Str)
    (hnd : (pm.mapping.map Prod.fst).Nodup)
    (hmem : (p, base) ∈ pm.mapping)
    (hnc : ':' ∉ r)
    (hdef : ∀ d, pm.default = some d →
      List.isPrefixOf d (base ++ r) = false)
    (hoth : ∀ nb ∈ pm.mapping, nb.1 ≠ p →
      List.isPrefixOf nb.2 (base ++ r) = false)
    (hrep : base = [] ∨ List.isPrefixOf base r = false) :
    shrinkExpand pm (Curie.new (some p) r)
      = some (.ok (Curie.new (some p) r)) := by
  have hlook : strLookup pm.mapping p = some base :=
    strLookup_of_nodup hnd hmem
  have hexp : expand_curie pm (Curie.new (some p) r) = .ok (base ++ r) := by
    simp [expand_curie, Curie.new, expand_exploded_curie, hlook]
  have htrim : trim_left_matches (base ++ r) base = r := by
    rcases hrep with hb | hb
    · subst hb
      rw [List.nil_append, trim_left_matches_nil_pat]
    · exact trim_left_matches_append hb
  have huni : ∀ nb ∈ pm.mapping,
      List.isPrefixOf nb.2 (base ++ r) = true → nb = (p, base) := by
    intro nb hnb hm
    obtain ⟨q, b⟩ := nb
    by_cases hq : q = p
    · subst hq
      have hb := nodup_key_val_unique hnd hnb hmem
      rw [hb]
    · rw [hoth (q, b) hnb hq] at hm
      cases hm
  have hscan : shrinkScan pm.mapping (base ++ r)
      = .ok (Curie.new (some p) (trim_left_matches (base ++ r) base)) :=
    shrinkScan_mem_unique hmem (isPrefixOf_append_left base r) huni
  have hshr : shrink_iri pm (base ++ r) = .ok (Curie.new (some p) r) := by
    cases hd : pm.default with
    | none =>
      rw [show shrink_iri pm (base ++ r) = shrinkScan pm.mapping (base ++ r)
        from by simp [shrink_iri, hd]]
      rw [hscan, htrim]
    | some d =>
      have hdp := hdef d hd
      rw [show shrink_iri pm (base ++ r) = shrinkScan pm.mapping (base ++ r)
        from by simp [shrink_iri, hd, hdp]]
      rw [hscan, htrim]
  simp [shrinkExpand, hexp, hshr]

/-- Witness for C3 at the registry mapping `"p"` to `"ab"` and the
reference `"X"`. -/
theorem roundtrip_registered_C3_w :
    shrinkExpand (PrefixMapping.mk none [(['p'], ['a', 'b'])])
        (Curie.new (some ['p']) ['X'])
      = some (.ok (Curie.new (some ['p']) ['X'])) :=
  roundtrip_registered_C3 (PrefixMapping.mk none [(['p'], ['a', 'b'])])
    ['p'] ['a', 'b'] ['X'] (by decide) (by decide) (by decide)
    (fun d hd => nomatch hd) (by decide) (Or.inr (by decide))

/-- C4 counterexample: with the default base `"ab"` (set through
`set_default`) and the colon-free reference `"abX"`, the round trip
returns `Curie(None, "X")` rather than `Curie(None, "abX")`: the
contraction strips the leading base twice. -/
theorem roundtrip_default_cex_C4 :
    (set_default emptyPM ['a', 'b']).default = some ['a', 'b'] ∧
    ':' ∉ (['a', 'b', 'X'] : Str) ∧
    shrinkExpand (set_default emptyPM ['a', 'b'])
        (Curie.new none ['a', 'b', 'X'])
      = some (.ok (Curie.new none ['X'])) ∧
    Curie.new none ['X'] ≠ Curie.new none ['a', 'b', 'X'] :=
  ⟨rfl, by decide, rfl, by decide⟩

/-- C4 (amended): default round-trip.  For a registry whose default base
is `d` and a reference `r` without a colon, expanding `Curie(None, r)`
and shrinking the result returns `Curie(None, r)` — provided
additionally (the amendment) that `d` is empty or `r` does not itself
start with `d`, since the contraction removes repeated leading
occurrences of the default base. -/
theorem roundtrip_default_C4 (pm : PrefixMapping) (d r : Str)
    (hdef : pm.default = some d)
    (hnc : ':' ∉ r)
    (hrep : d = [] ∨ List.isPrefixOf d r = false) :
    shrinkExpand pm (Curie.new none r) = some (.ok (Curie.new none r)) := by
  have hexp : expand_curie pm (Curie.new none r) = .ok (d ++ r) := by
    simp [expand_curie, Curie.new, expand_exploded_curie, hdef]
  have htrim : trim_left_matches (d ++ r) d = r := by
    rcases hrep with hb | hb
    · subst hb
      rw [List.nil_append, trim_left_matches_nil_pat]
    · exact trim_left_matches_append hb
  have hshr : shrink_iri pm (d ++ r) = .ok (Curie.new none r) := by
    simp only [shrink_iri, hdef, isPrefixOf_append_left, if_true, htrim]
  simp [shrinkExpand, hexp, hshr]

/-- Witness for C4 at the registry with default base `"ab"` and the
reference `"X"`. -/
theorem roundtrip_default_C4_w :
    shrinkExpand (set_default emptyPM ['a', 'b']) (Curie.new none ['X'])
      = some (.ok (Curie.new none ['X'])) :=
  roundtrip_default_C4 (set_default emptyPM ['a', 'b']) ['a', 'b'] ['X']
    rfl (by decide) (Or.inr (by decide))

end CurieLib
